import Mathlib

/-!
Verification development for the Cassiopeia lineage-tracing core:
a shallow embedding of `CassiopeiaTree` (ages, branch lengths, subtree
recomputation), the greedy recursive solver, the mutation-frequency
counter, the spectral cut scan, and the hybrid greedy+spectral split.

Conventions of the embedding:
* Node identifiers are natural numbers; the rooted tree structure stored
  in the networkx digraph is modelled by the inductive `Skel` (a node id
  together with the list of child subtrees).
* Python floats (ages, branch lengths, similarity weights) are modelled
  by exact rationals `ℚ`.
* A Python method that can raise is modelled as a function into `Option`,
  returning `none` exactly on the paths where the source raises.
* External collaborators that are not part of the sources
  (similarity-graph builder, Fiedler eigenvector computation,
  hill-climbing cut improvement, missing-data classifier) are passed as
  explicit parameters.
-/

/-- Tree skeleton: a node id together with the list of child subtrees.
Models the node/edge structure of the networkx digraph held by
`CassiopeiaTree.__network`. -/
inductive Skel : Type where
  | node (id : ℕ) (children : List Skel)

/-- The id of the root node of a skeleton. -/
def Skel.id : Skel → ℕ
  | .node i _ => i

/-- The child subtrees of the root of a skeleton. -/
def Skel.children : Skel → List Skel
  | .node _ cs => cs

mutual

/-- All node ids of a skeleton (root first, then each child subtree). -/
def Skel.ids : Skel → List ℕ
  | .node i cs => i :: Skel.idsL cs

/-- All node ids of a list of skeletons, in order. -/
def Skel.idsL : List Skel → List ℕ
  | [] => []
  | c :: cs => c.ids ++ Skel.idsL cs

end

mutual

/-- All (parent id, child id) edges of a skeleton. -/
def Skel.edges : Skel → List (ℕ × ℕ)
  | .node i cs => Skel.edgesL i cs

/-- Edges from a parent id `p` to each subtree in the list, together with
the edges inside those subtrees. -/
def Skel.edgesL : ℕ → List Skel → List (ℕ × ℕ)
  | _, [] => []
  | p, c :: cs => (p, c.id) :: (c.edges ++ Skel.edgesL p cs)

end

mutual

/-- The subtree rooted at the node with id `n`, if present. -/
def Skel.find : Skel → ℕ → Option Skel
  | .node i cs, n => if i = n then some (.node i cs) else Skel.findL cs n

/-- Search a list of subtrees for the node with id `n`. -/
def Skel.findL : List Skel → ℕ → Option Skel
  | [], _ => none
  | c :: cs, n =>
    match c.find n with
    | some t => some t
    | none => Skel.findL cs n

end

mutual

/-- The depth-first age recomputation of `CassiopeiaTree.set_age` /
`set_branch_length`: walking the edges of the subtree in DFS order and
setting `age[v] = age[u] + length[v]`.  `base` is the (already final) age
of the subtree's root, so each strict descendant receives the age of its
parent plus the stored length of its incoming edge.  Ages of nodes outside
the subtree are untouched. -/
def recompute (len : ℕ → ℚ) : Skel → ℚ → (ℕ → ℚ) → (ℕ → ℚ)
  | .node _ cs, base, age => recomputeL len cs base age

/-- Age recomputation over a list of sibling subtrees whose parent has age
`base`. -/
def recomputeL (len : ℕ → ℚ) : List Skel → ℚ → (ℕ → ℚ) → (ℕ → ℚ)
  | [], _, age => age
  | c :: cs, base, age =>
    recomputeL len cs base
      (recompute len c (base + len c.id) (Function.update age c.id (base + len c.id)))

end

/-- The tree state held by an initialized `CassiopeiaTree`: the node/edge
structure, the per-node `age` attribute and the per-edge `length`
attribute (an edge is indexed by its child node, which has a unique
incoming edge). -/
structure CasTree : Type where
  skel : Skel
  age : ℕ → ℚ
  length : ℕ → ℚ

/-- Well-formedness of the stored structure: node ids are unique (networkx
nodes are unique keys). -/
def WF (t : CasTree) : Prop := t.skel.ids.Nodup

/-- The age/length consistency invariant: for every edge (p, c),
`age(c) = age(p) + length(p, c)`. -/
def AgeInv (t : CasTree) : Prop :=
  ∀ e ∈ t.skel.edges, t.age e.2 = t.age e.1 + t.length e.2

/-- `CassiopeiaTree.parent`: the first predecessor of `n`
(`[u for u in self.__network.predecessors(node)][0]`); `none` when there
is no incoming edge (the source raises an `IndexError` there). -/
def parentOf (s : Skel) (n : ℕ) : Option ℕ :=
  (s.edges.find? (fun e => e.2 == n)).map Prod.fst

/-- `CassiopeiaTree.set_age`.  Looks up the parent, raises (`none`) when
the new age is below the parent's age, otherwise stores the new age,
recomputes the ages of the whole subtree below `n` by the DFS walk, and
finally rescales the incoming edge length to
`get_age(node) - get_age(parent)`.  The guard precedes every mutation in
the source, so a failing call performs no partial write. -/
def setAge (t : CasTree) (n : ℕ) (a : ℚ) : Option CasTree :=
  match parentOf t.skel n with
  | none => none
  | some p =>
    if a < t.age p then none
    else
      match t.skel.find n with
      | none => none
      | some sub =>
        let age2 := recompute t.length sub a (Function.update t.age n a)
        some { skel := t.skel, age := age2,
               length := Function.update t.length n (age2 n - age2 p) }

/-- `CassiopeiaTree.set_branch_length`.  Raises (`none`) when (p, c) is
not an edge or the new length is negative; otherwise stores the new
length and recomputes the ages of the entire subtree rooted at `p` by the
DFS walk (using the updated length). -/
def setBranchLength (t : CasTree) (p c : ℕ) (l : ℚ) : Option CasTree :=
  match t.skel.find p with
  | none => none
  | some sub =>
    if c ∈ sub.children.map Skel.id then
      if l < 0 then none
      else
        let len1 := Function.update t.length c l
        some { skel := t.skel, age := recompute len1 sub (t.age p) t.age, length := len1 }
    else none

/-- One invariant-relevant mutation of the tree. -/
inductive TreeOp : Type where
  | setAge (n : ℕ) (a : ℚ)
  | setBranchLength (p c : ℕ) (l : ℚ)

/-- Apply one mutation. -/
def applyOp (t : CasTree) : TreeOp → Option CasTree
  | .setAge n a => setAge t n a
  | .setBranchLength p c l => setBranchLength t p c l

/-- Apply a sequence of mutations; `some` exactly when every call in the
sequence succeeds. -/
def applyOps (t : CasTree) : List TreeOp → Option CasTree
  | [] => some t
  | op :: ops =>
    match applyOp t op with
    | none => none
    | some t1 => applyOps t1 ops

/-- Out-degree of the node with id `n` (number of children). -/
def outDegree (s : Skel) (n : ℕ) : ℕ :=
  match s.find n with
  | some t => t.children.length
  | none => 0

/-- `CassiopeiaTree.internal_nodes`:
`[n for n in self.__network if self.__network.out_degree(n) > 1]`. -/
def internalNodes (t : CasTree) : List ℕ :=
  t.skel.ids.filter (fun n => decide (1 < outDegree t.skel n))

/-- `CassiopeiaTree.leaves`: the nodes with out-degree 0. -/
def treeLeaves (t : CasTree) : List ℕ :=
  t.skel.ids.filter (fun n => decide (outDegree t.skel n = 0))

/-- `CassiopeiaTree.relabel_nodes`, i.e. `nx.relabel_nodes` on the stored
digraph viewed as a node list and an edge list: every node and every edge
endpoint is pushed through the map and duplicates collapse (networkx
stores nodes and edges as unique keys), with no collision check of any
kind in the source. -/
def relabelGraph (nodes : List ℕ) (edges : List (ℕ × ℕ)) (f : ℕ → ℕ) :
    List ℕ × List (ℕ × ℕ) :=
  ((nodes.map f).dedup, (edges.map (fun e => (f e.1, f e.2))).dedup)

/-! ## Mutation frequency counter (`GreedySolver.compute_mutation_frequencies`) -/

/-- Entry of the (deduplicated) character matrix at row `i`, column `c`. -/
def entryOf (cm : List (List ℤ)) (i : ℕ) (c : ℕ) : ℤ :=
  (cm.getD i []).getD c 0

/-- Number of characters (columns). -/
def numChars (cm : List (List ℤ)) : ℕ := (cm.headD []).length

/-- The states of character `c` across the given sample rows
(`cm.iloc[samples, :]` restricted to one column). -/
def colStates (cm : List (List ℤ)) (c : ℕ) (samples : List ℕ) : List ℤ :=
  samples.map (fun i => entryOf cm i c)

/-- Number of samples in the subset whose character `c` carries state `s`. -/
def stateCount (cm : List (List ℤ)) (c : ℕ) (samples : List ℕ) (s : ℤ) : ℕ :=
  (colStates cm c samples).count s

/-- The per-character dictionary built from `np.unique(..., return_counts=True)`:
each observed state mapped to its count, with the missing-state key added
with count 0 when absent.  (The source sorts the keys via `np.unique`;
the key order is immaterial to every property proved here.) -/
def charDict (cm : List (List ℤ)) (c : ℕ) (samples : List ℕ) (missing : ℤ) :
    List (ℤ × ℕ) :=
  let keys := (colStates cm c samples).dedup
  let base := keys.map (fun s => (s, stateCount cm c samples s))
  if missing ∈ keys then base else base ++ [(missing, 0)]

/-- The full frequency table over a fixed sample subset: one state/count
dictionary per character. -/
def freqTable (cm : List (List ℤ)) (missing : ℤ) (samples : List ℕ) :
    List (List (ℤ × ℕ)) :=
  (List.range (numChars cm)).map (fun c => charDict cm c samples missing)

/-- `GreedySolver.compute_mutation_frequencies(samples)`.  The source
guard is `if not samples: samples = list(range(self.prune_cm.shape[0]))`,
which replaces both `None` and the empty list by all rows of the
deduplicated character matrix. -/
def computeMutationFrequencies (cm : List (List ℤ)) (missing : ℤ) :
    Option (List ℕ) → List (List (ℤ × ℕ))
  | none => freqTable cm missing (List.range cm.length)
  | some [] => freqTable cm missing (List.range cm.length)
  | some (i :: rest) => freqTable cm missing (i :: rest)

/-! ## Greedy recursive solver (`GreedySolver.solve`'s `_solve`) -/

/-- The mutable tree that `_solve` grows: nodes are `0 .. numNodes - 1`
(each fresh internal node gets id `len(self.tree.nodes)`), plus the edge
list. -/
structure GTree : Type where
  numNodes : ℕ
  edges : List (ℕ × ℕ)

/-- `_solve(samples)` of `GreedySolver.solve`, parameterized by the
subclass `perform_split` and supplied with fuel for the recursion (the
source engine does not defend against a non-shrinking split; `none` means
the fuel ran out, a case the claims never exercise).  A singleton is
returned as a leaf; otherwise frequencies are computed, the split is
performed, a fresh node is allocated, an empty side produces a polytomy
over the other side, and otherwise both sides are solved recursively. -/
def solveGo (split : List (List (ℤ × ℕ)) → List ℕ → List ℕ × List ℕ)
    (cm : List (List ℤ)) (missing : ℤ) :
    ℕ → GTree → List ℕ → Option (GTree × ℕ)
  | _, st, [s] => some (st, s)
  | 0, _, _ => none
  | fuel + 1, st, samples =>
    let freqs := computeMutationFrequencies cm missing (some samples)
    let lr := split freqs samples
    let root := st.numNodes
    let st1 : GTree := ⟨st.numNodes + 1, st.edges⟩
    if lr.1 = [] then
      some (⟨st1.numNodes, st1.edges ++ lr.2.map (fun i => (root, i))⟩, root)
    else if lr.2 = [] then
      some (⟨st1.numNodes, st1.edges ++ lr.1.map (fun i => (root, i))⟩, root)
    else
      match solveGo split cm missing fuel st1 lr.1 with
      | none => none
      | some r1 =>
        match solveGo split cm missing fuel r1.1 lr.2 with
        | none => none
        | some r2 =>
          some (⟨r2.1.numNodes, r2.1.edges ++ [(root, r1.2), (root, r2.2)]⟩, root)

/-! ## Spectral cut scan (`SpectralSolver.perform_split`) -/

/-- All unordered vertex pairs of the similarity graph, as ordered pairs
following the vertex list (used only to sum every edge weight once). -/
def allPairs : List ℕ → List (ℕ × ℕ)
  | [] => []
  | v :: vs => vs.map (fun w => (v, w)) ++ allPairs vs

/-- `total_weight = 2 * sum(G[e[0]][e[1]]["weight"] for e in G.edges())`.
The graph is modelled by its symmetric weight function (`G v w = 0` for a
non-edge and on the diagonal), so summing the weight of every unordered
pair sums exactly the edge weights. -/
def totalWeight (G : ℕ → ℕ → ℚ) (order : List ℕ) : ℚ :=
  2 * ((allPairs order).map (fun p => G p.1 p.2)).sum

/-- `neighbor_weight`: total weight from `v` to the rest of the graph
(non-neighbors contribute weight 0). -/
def nbrWeight (G : ℕ → ℕ → ℚ) (verts : List ℕ) (v : ℕ) : ℚ :=
  ((verts.filter (fun w => decide (w ≠ v))).map (fun w => G v w)).sum

/-- `cut_edges`: total weight from `v` into the already-cut set. -/
def cutWeight (G : ℕ → ℕ → ℚ) (verts : List ℕ) (v : ℕ) (cut : List ℕ) : ℚ :=
  ((verts.filter (fun w => decide (w ≠ v) && decide (w ∈ cut))).map (fun w => G v w)).sum

/-- State of the cut scan loop of `SpectralSolver.perform_split`.  The
fields `cut`, `numerator`, `denominator`, `prevNumerator`, `bestScore`
(`none` standing for the initial `np.inf`) and `bestIndex` are the loop
variables of the source; `steps` and `broke` are ghost instrumentation
recording how many iterations executed and whether the loop exited via
`break`, used only to state early-termination properties. -/
structure ScanState : Type where
  cut : List ℕ
  numerator : ℚ
  denominator : ℚ
  prevNumerator : ℚ
  bestScore : Option ℚ
  bestIndex : ℕ
  steps : ℕ
  broke : Bool

/-- `score < best_score`, with `none` playing the role of `np.inf`. -/
def scoreBeatsBest (q : ℚ) : Option ℚ → Bool
  | none => true
  | some b => decide (q < b)

/-- One iteration of the scan loop at index `i` on vertex `v`: grow the
cut, accumulate the degree and the crossing weight, update
numerator/denominator, `break` when the numerator turns nonzero right
after a zero (committing `best_index = i - 1`), otherwise track the
minimum score, a degenerate `min(denominator, total - denominator) == 0`
forcing score 0 and `best_index = i`. -/
def scanStep (G : ℕ → ℕ → ℚ) (verts : List ℕ) (totalW : ℚ) (i : ℕ) (v : ℕ)
    (st : ScanState) : ScanState :=
  let cut := v :: st.cut
  let denominator := st.denominator + nbrWeight G verts v
  let prev := if 0 < i then st.numerator else st.prevNumerator
  let numerator := st.numerator + nbrWeight G verts v - 2 * cutWeight G verts v cut
  if numerator ≠ 0 ∧ prev = 0 then
    { cut := cut, numerator := numerator, denominator := denominator,
      prevNumerator := prev, bestScore := st.bestScore, bestIndex := i - 1,
      steps := st.steps + 1, broke := true }
  else if min denominator (totalW - denominator) ≠ 0 then
    if scoreBeatsBest (numerator / min denominator (totalW - denominator)) st.bestScore then
      { cut := cut, numerator := numerator, denominator := denominator,
        prevNumerator := prev,
        bestScore := some (numerator / min denominator (totalW - denominator)),
        bestIndex := i, steps := st.steps + 1, broke := false }
    else
      { cut := cut, numerator := numerator, denominator := denominator,
        prevNumerator := prev, bestScore := st.bestScore, bestIndex := st.bestIndex,
        steps := st.steps + 1, broke := false }
  else
    { cut := cut, numerator := numerator, denominator := denominator,
      prevNumerator := prev, bestScore := some 0, bestIndex := i,
      steps := st.steps + 1, broke := false }

/-- Run the scan loop over the remaining `(index, vertex)` items, exiting
as soon as a step `break`s. -/
def scanGo (G : ℕ → ℕ → ℚ) (verts : List ℕ) (totalW : ℚ) :
    List (ℕ × ℕ) → ScanState → ScanState
  | [], st => st
  | (i, v) :: rest, st =>
    let st1 := scanStep G verts totalW i v st
    if st1.broke then st1 else scanGo G verts totalW rest st1

/-- The loop-entry state (`cut = set()`, `numerator = 0`,
`denominator = 0`, `prev_numerator = -1`, `best_score = np.inf`,
`best_index = 0`). -/
def initScan : ScanState :=
  { cut := [], numerator := 0, denominator := 0, prevNumerator := -1,
    bestScore := none, bestIndex := 0, steps := 0, broke := false }

/-- The iteration items `for i in range(len(vertices) - 1)` paired with
`vertices[i]`. -/
def scanItems (order : List ℕ) : List (ℕ × ℕ) :=
  (List.range (order.length - 1)).zip order

/-- The full cut scan over the Fiedler-ordered vertices. -/
def cutScan (G : ℕ → ℕ → ℚ) (order : List ℕ) (totalW : ℚ) : ScanState :=
  scanGo G order totalW (scanItems order) initScan

/-- The scan stopped after its first `k` iterations (used to speak about
the running numerator at a given index). -/
def prefixScan (G : ℕ → ℕ → ℚ) (order : List ℕ) (totalW : ℚ) (k : ℕ) : ScanState :=
  scanGo G order totalW ((scanItems order).take k) initScan

/-- `SpectralSolver.perform_split`, with the similarity graph `G`, the
Fiedler ordering of its vertices and the external hill-climbing
`spectral_improve_cut` passed as parameters.  If the total edge weight is
0 the full sample list is returned against an empty right side; otherwise
the scan selects the best cut index, the prefix is refined by the
hill-climbing routine, and the right side is every sample not in the
refined left side. -/
def spectralPerformSplit (G : ℕ → ℕ → ℚ) (order : List ℕ)
    (improve : List ℕ → List ℕ) (samples : List ℕ) : List ℕ × List ℕ :=
  if totalWeight G order = 0 then (samples, [])
  else
    let st := cutScan G order (totalWeight G order)
    let left := improve (order.take (st.bestIndex + 1))
    (left, samples.filter (fun s => decide (s ∉ left)))

/-! ## Hybrid greedy+spectral split (`SpectralGreedySolver.perform_split`) -/

/-- `mutation_frequencies[character][missing_state_indicator]` (the
missing key is always present in a table built by
`compute_mutation_frequencies`). -/
def missingCountOf (dict : List (ℤ × ℕ)) (missing : ℤ) : ℕ :=
  (List.lookup missing dict).getD 0

/-- The score of a (character, state, count) candidate: the raw count, or
the count scaled by the weight of the pair when weights are supplied. -/
def pairScore (weights : Option (ℕ → ℤ → ℚ)) (c : ℕ) (s : ℤ) (count : ℕ) : ℚ :=
  match weights with
  | some w => (count : ℚ) * w c s
  | none => (count : ℚ)

/-- The filter of the selection loop: the state is neither the missing
sentinel nor 0, and its frequency is strictly below the number of samples
minus the missing count of the character (mutations shared by every
non-missing sample are not informative). -/
def qualifies (missing : ℤ) (nSamples : ℕ) (dict : List (ℤ × ℕ)) (s : ℤ) (count : ℕ) :
    Prop :=
  s ≠ missing ∧ s ≠ 0 ∧ (count : ℤ) < (nSamples : ℤ) - (missingCountOf dict missing : ℤ)

instance (missing : ℤ) (nSamples : ℕ) (dict : List (ℤ × ℕ)) (s : ℤ) (count : ℕ) :
    Decidable (qualifies missing nSamples dict s count) := by
  unfold qualifies; infer_instance

/-- One step of the selection loop over the states of character `c`: keep
the accumulator unless the candidate qualifies and strictly beats the
best score so far. -/
def selectStep (weights : Option (ℕ → ℤ → ℚ)) (missing : ℤ) (nSamples : ℕ)
    (dict : List (ℤ × ℕ)) (c : ℕ) (acc : ℚ × ℕ × ℤ) (p : ℤ × ℕ) : ℚ × ℕ × ℤ :=
  if qualifies missing nSamples dict p.1 p.2 then
    if acc.1 < pairScore weights c p.1 p.2 then (pairScore weights c p.1 p.2, c, p.1)
    else acc
  else acc

/-- The nested selection loop of `SpectralGreedySolver.perform_split` over
all characters and their states, starting from
`best_frequency = 0, chosen_character = 0, chosen_state = 0`. -/
def selectBest (weights : Option (ℕ → ℤ → ℚ)) (missing : ℤ) (nSamples : ℕ)
    (freqs : List (List (ℤ × ℕ))) : ℚ × ℕ × ℤ :=
  freqs.enum.foldl (fun acc cd => cd.2.foldl (selectStep weights missing nSamples cd.2 cd.1) acc)
    (0, 0, 0)

/-- The fold over one character's dictionary inside `selectBest` (the
body of the outer loop over the characters). -/
def selOuter (weights : Option (ℕ → ℤ → ℚ)) (missing : ℤ) (nSamples : ℕ)
    (acc : ℚ × ℕ × ℤ) (cd : ℕ × List (ℤ × ℕ)) : ℚ × ℕ × ℤ :=
  cd.2.foldl (selectStep weights missing nSamples cd.2 cd.1) acc

/-- Positivity of the supplied weights (trivial when no weights are
given). -/
def posWeights : Option (ℕ → ℤ → ℚ) → Prop
  | none => True
  | some w => ∀ c s, 0 < w c s

/-- `SpectralGreedySolver.perform_split`: select the best qualifying
(character, state) pair; if none was selected (`chosen_state == 0`)
return `(samples, [])`; otherwise partition the samples on the chosen
character into carriers of the chosen state, missing samples and the
rest, resolve the missing group with the external missing-data
classifier, refine the left set with the external hill-climbing routine
on the similarity graph, and return every sample not in the refined left
set as the right side. -/
def hybridPerformSplit (cm : List (List ℤ)) (missing : ℤ)
    (weights : Option (ℕ → ℤ → ℚ))
    (classifier : List ℕ → List ℕ → List ℕ → List ℕ × List ℕ)
    (improve : List ℕ → List ℕ) (samples : List ℕ) : List ℕ × List ℕ :=
  let freqs := freqTable cm missing samples
  let sel := selectBest weights missing samples.length freqs
  if sel.2.2 = 0 then (samples, [])
  else
    let leftSet := samples.filter (fun i => decide (entryOf cm i sel.2.1 = sel.2.2))
    let missingSet := samples.filter
      (fun i => decide (entryOf cm i sel.2.1 ≠ sel.2.2 ∧ entryOf cm i sel.2.1 = missing))
    let rightSet := samples.filter
      (fun i => decide (entryOf cm i sel.2.1 ≠ sel.2.2 ∧ entryOf cm i sel.2.1 ≠ missing))
    let lr := classifier leftSet rightSet missingSet
    let left := improve lr.1
    (left, samples.filter (fun s => decide (s ∉ left)))

/-- A returned pair is a partition of the input sample list: both sides
draw from the samples, the sides are disjoint, and every sample lands on
exactly one side. -/
def partitionOk (samples : List ℕ) (pr : List ℕ × List ℕ) : Prop :=
  (∀ x ∈ pr.1, x ∈ samples) ∧ (∀ x ∈ pr.2, x ∈ samples) ∧
    (∀ x ∈ samples, (x ∈ pr.1 ↔ x ∉ pr.2)) ∧ (∀ x, ¬(x ∈ pr.1 ∧ x ∈ pr.2))

/-- A four-vertex similarity graph with a single unit edge between
vertices 2 and 3 (vertices 0 and 1 isolated), used to exercise the cut
scan. -/
def pairGraph : ℕ → ℕ → ℚ := fun a b =>
  if (a = 2 ∧ b = 3) ∨ (a = 3 ∧ b = 2) then 1 else 0

/-! ## Generic list helpers -/

/-- Mapping a duplicate-free image back: two members sent to the same
value coincide. -/
theorem eq_of_nodup_map {α β : Type} (f : α → β) (l : List α) (a b : α)
    (hmap : (l.map f).Nodup) (hfab : f a = f b) :
    a ∈ l → b ∈ l → a = b := by
  induction l with
  | nil => intro ha; cases ha
  | cons c rest ih =>
    intro ha hb
    rw [List.map_cons, List.nodup_cons] at hmap
    rcases List.mem_cons.mp ha with rfl | hamem
    · rcases List.mem_cons.mp hb with rfl | hbmem
      · rfl
      · exact absurd (hfab ▸ List.mem_map_of_mem f hbmem) hmap.1
    · rcases List.mem_cons.mp hb with rfl | hbmem
      · exact absurd (hfab ▸ List.mem_map_of_mem f hamem) hmap.1
      · exact ih hmap.2 hamem hbmem

/-- Deduplication strictly shrinks a list with a duplicate. -/
theorem dedup_length_lt_of_not_nodup {α : Type} [DecidableEq α] (l : List α)
    (h : ¬ l.Nodup) : l.dedup.length < l.length := by
  have hs : List.Sublist l.dedup l := List.dedup_sublist l
  rcases lt_or_eq_of_le hs.length_le with h1 | h1
  · exact h1
  · have h2 : l.dedup = l := hs.eq_of_length h1
    exact absurd (h2 ▸ l.nodup_dedup) h

/-- Looking a key up in an association list tabulating a function. -/
theorem lookup_map_self {α β : Type} [DecidableEq α] (l : List α) (f : α → β) (a : α) :
    List.lookup a (l.map (fun s => (s, f s))) =
      if a ∈ l then some (f a) else none := by
  induction l with
  | nil => simp
  | cons c l ih =>
    rw [List.map_cons, List.lookup_cons]
    by_cases hac : a = c
    · subst hac
      simp
    · have hb : (a == c) = false := beq_eq_false_iff_ne.mpr hac
      simp only [hb]
      rw [ih]
      simp [List.mem_cons, hac]

/-! ## C2: the `set_age` monotonicity guard -/

/-- C2: for every non-root node `n` (one with a parent `p`) and every new
age below the parent's age, `set_age` raises; the guard precedes every
write in the source, so the tree value is left entirely unchanged. -/
theorem set_age_monotonicity_guard (t : CasTree) (n p : ℕ) (a : ℚ)
    (hp : parentOf t.skel n = some p) (ha : a < t.age p) :
    setAge t n a = none := by
  unfold setAge
  rw [hp]
  dsimp only
  rw [if_pos ha]

/-- Witness for C2 at a two-node tree. -/
theorem set_age_monotonicity_guard_witness :
    setAge ⟨Skel.node 0 [Skel.node 1 []], fun n => (n : ℚ), fun _ => 1⟩ 1 (-1) = none :=
  set_age_monotonicity_guard _ 1 0 (-1) (by decide) (by norm_num)

/-! ## C4: the spectral empty-graph early return -/

/-- C4: whenever the similarity graph built over the samples has total
edge weight 0, `SpectralSolver.perform_split` returns the whole sample
list on the left and an empty right side. -/
theorem spectral_empty_graph (G : ℕ → ℕ → ℚ) (order : List ℕ)
    (improve : List ℕ → List ℕ) (samples : List ℕ)
    (h : totalWeight G order = 0) :
    spectralPerformSplit G order improve samples = (samples, []) := by
  unfold spectralPerformSplit
  rw [if_pos h]

/-- Witness for C4 on a two-vertex graph with no edges. -/
theorem spectral_empty_graph_witness :
    spectralPerformSplit (fun _ _ => 0) [0, 1] (fun l => l) [5, 7] = ([5, 7], []) :=
  spectral_empty_graph _ _ _ _ (by norm_num [totalWeight, allPairs])

/-! ## C7: `internal_nodes` versus unifurcations -/

/-- C7: the source filters on `out_degree(n) > 1`, so a unifurcation (a
node with exactly one child) is listed neither among the internal nodes
nor among the leaves, although the docstring promises "all nodes not at
the leaves".  On the two-node chain `0 → 1`, node 0 has one child yet
`internal_nodes` is empty, while the leaves are exactly `[1]`. -/
theorem internal_nodes_unifurcation_bug :
    internalNodes ⟨Skel.node 0 [Skel.node 1 []], fun _ => 0, fun _ => 0⟩ = [] ∧
    outDegree (Skel.node 0 [Skel.node 1 []]) 0 = 1 ∧
    treeLeaves ⟨Skel.node 0 [Skel.node 1 []], fun _ => 0, fun _ => 0⟩ = [1] := by
  decide

/-! ## C8: `relabel_nodes` and label collisions -/

/-- C8 counterexample: relabeling `0,1,2` with the map sending both 1 and
2 to 5 silently returns a merged two-node graph instead of raising any
error. -/
theorem relabel_nodes_collision_counterexample :
    relabelGraph [0, 1, 2] [(0, 1), (0, 2)] (fun n => if n = 0 then 0 else 5) =
      ([0, 5], [(0, 5)]) := by
  decide

/-- C8 amended: `relabel_nodes` performs no collision check; a map that
sends two distinct nodes to one identifier silently merges them, so the
relabeled graph has strictly fewer nodes. -/
theorem relabel_nodes_collision_merges (nodes : List ℕ) (edges : List (ℕ × ℕ))
    (f : ℕ → ℕ) (x y : ℕ) (hx : x ∈ nodes) (hy : y ∈ nodes)
    (hxy : x ≠ y) (hf : f x = f y) :
    (relabelGraph nodes edges f).1.length < nodes.length := by
  have hnot : ¬ (nodes.map f).Nodup := fun h =>
    hxy (eq_of_nodup_map f nodes x y h hf hx hy)
  have := dedup_length_lt_of_not_nodup (nodes.map f) hnot
  simpa [relabelGraph] using this

/-- Witness for the amended C8. -/
theorem relabel_nodes_collision_merges_witness :
    (relabelGraph [0, 1, 2] [(0, 1), (0, 2)] (fun n => if n = 0 then 0 else 5)).1.length <
      [0, 1, 2].length :=
  relabel_nodes_collision_merges [0, 1, 2] [(0, 1), (0, 2)] _ 1 2 (by decide) (by decide)
    (by decide) (by decide)

/-! ## C9: both refined splits partition the sample list -/

/-- The degenerate pair `(samples, [])` partitions the samples. -/
theorem partitionOk_trivial (samples : List ℕ) : partitionOk samples (samples, []) := by
  refine ⟨fun x hx => hx, ?_, ?_, ?_⟩ <;> simp

/-- Pairing a sub-list of the samples with the filtered complement
partitions the samples. -/
theorem partitionOk_filter (samples left : List ℕ) (hl : ∀ x ∈ left, x ∈ samples) :
    partitionOk samples (left, samples.filter (fun s => decide (s ∉ left))) := by
  refine ⟨hl, ?_, ?_, ?_⟩
  · intro x hx
    exact (List.mem_filter.mp hx).1
  · intro x hx
    constructor
    · intro hxl hxr
      have h2 := (List.mem_filter.mp hxr).2
      simp only [decide_eq_true_eq] at h2
      exact h2 hxl
    · intro hxr
      by_contra hxl
      exact hxr (List.mem_filter.mpr ⟨hx, by simpa using hxl⟩)
  · rintro x ⟨hxl, hxr⟩
    have h2 := (List.mem_filter.mp hxr).2
    simp only [decide_eq_true_eq] at h2
    exact h2 hxl

/-- C9: assuming the hill-climbing refinement returns a subset of the
input samples, both the spectral and the hybrid `perform_split` return a
pair (left, right) that partitions the input: the right side is defined
as exactly the input samples not in the refined left side. -/
theorem perform_split_partition :
    (∀ (G : ℕ → ℕ → ℚ) (order : List ℕ) (improve : List ℕ → List ℕ) (samples : List ℕ),
      (∀ l, ∀ x ∈ improve l, x ∈ samples) →
      partitionOk samples (spectralPerformSplit G order improve samples)) ∧
    (∀ (cm : List (List ℤ)) (missing : ℤ) (weights : Option (ℕ → ℤ → ℚ))
      (classifier : List ℕ → List ℕ → List ℕ → List ℕ × List ℕ)
      (improve : List ℕ → List ℕ) (samples : List ℕ),
      (∀ l, ∀ x ∈ improve l, x ∈ samples) →
      partitionOk samples (hybridPerformSplit cm missing weights classifier improve samples)) := by
  constructor
  · intro G order improve samples h
    simp only [spectralPerformSplit]
    by_cases h0 : totalWeight G order = 0
    · rw [if_pos h0]
      exact partitionOk_trivial samples
    · rw [if_neg h0]
      exact partitionOk_filter samples _ (h _)
  · intro cm missing weights classifier improve samples h
    simp only [hybridPerformSplit]
    by_cases h0 :
        (selectBest weights missing samples.length (freqTable cm missing samples)).2.2 = 0
    · rw [if_pos h0]
      exact partitionOk_trivial samples
    · rw [if_neg h0]
      exact partitionOk_filter samples _ (h _)

/-- Witness for C9 with a constant-empty refinement on both engines. -/
theorem perform_split_partition_witness :
    partitionOk [0, 1] (spectralPerformSplit (fun _ _ => 1) [0, 1] (fun _ => []) [0, 1]) ∧
    partitionOk [0] (hybridPerformSplit [[1]] (-1) none (fun a b _ => (a, b))
      (fun _ => []) [0]) :=
  ⟨perform_split_partition.1 _ _ _ _ (by simp),
   perform_split_partition.2 _ _ _ _ _ _ (by simp)⟩

/-! ## C6: solving an empty sample set -/

/-- C6 counterexample: `_solve` on zero samples does not raise any
empty-sample-set error; with a split returning two empty sides it
allocates a fresh childless node and succeeds. -/
theorem greedy_empty_sample_counterexample :
    solveGo (fun _ _ => ([], [])) [] (-1) 1 ⟨0, []⟩ [] = some (⟨1, []⟩, 0) := rfl

/-- C6 amended: the greedy recursive solver has no guard for an empty
sample set (no `EmptySampleSetError` exists in the source); whenever the
split of the empty sample list returns an empty left side, `_solve`
allocates a fresh node, attaches every member of the right side under it
and returns successfully. -/
theorem greedy_empty_sample_no_error
    (split : List (List (ℤ × ℕ)) → List ℕ → List ℕ × List ℕ)
    (cm : List (List ℤ)) (missing : ℤ) (fuel : ℕ) (st : GTree)
    (h : (split (computeMutationFrequencies cm missing (some [])) []).1 = []) :
    solveGo split cm missing (fuel + 1) st [] =
      some (⟨st.numNodes + 1,
        st.edges ++ ((split (computeMutationFrequencies cm missing (some [])) []).2).map
          (fun i => (st.numNodes, i))⟩, st.numNodes) := by
  simp only [solveGo]
  rw [if_pos h]

/-- Witness for the amended C6. -/
theorem greedy_empty_sample_no_error_witness :
    solveGo (fun _ _ => ([], [7])) [] (-1) 2 ⟨3, [(0, 1)]⟩ [] =
      some (⟨4, [(0, 1), (3, 7)]⟩, 3) :=
  greedy_empty_sample_no_error (fun _ _ => ([], [7])) [] (-1) 1 ⟨3, [(0, 1)]⟩ rfl

/-! ## C10: `compute_mutation_frequencies` -/

/-- Looking a key up in a tabulating association list followed by further
entries. -/
theorem lookup_map_append {α β : Type} [DecidableEq α] (l : List α) (f : α → β)
    (rest : List (α × β)) (a : α) :
    List.lookup a (l.map (fun s => (s, f s)) ++ rest) =
      if a ∈ l then some (f a) else List.lookup a rest := by
  induction l with
  | nil => simp
  | cons c l ih =>
    rw [List.map_cons, List.cons_append, List.lookup_cons]
    by_cases hac : a = c
    · subst hac
      simp
    · have hb : (a == c) = false := beq_eq_false_iff_ne.mpr hac
      simp only [hb]
      rw [ih]
      simp [List.mem_cons, hac]

/-- The per-character dictionary maps exactly the observed states plus
the missing sentinel, each to its count over the sample subset. -/
theorem charDict_lookup (cm : List (List ℤ)) (c : ℕ) (samples : List ℕ)
    (missing : ℤ) (s : ℤ) :
    List.lookup s (charDict cm c samples missing) =
      if s ∈ colStates cm c samples ∨ s = missing
      then some (stateCount cm c samples s) else none := by
  unfold charDict
  by_cases hm : missing ∈ (colStates cm c samples).dedup
  · rw [if_pos hm]
    have h1 := lookup_map_append (colStates cm c samples).dedup
      (fun s => stateCount cm c samples s) [] s
    rw [List.append_nil] at h1
    rw [h1]
    by_cases hs : s ∈ (colStates cm c samples).dedup
    · rw [if_pos hs, if_pos (Or.inl (List.mem_dedup.mp hs))]
    · rw [if_neg hs, if_neg]
      simp only [List.lookup]
      rintro (h | rfl)
      · exact hs (List.mem_dedup.mpr h)
      · exact hs hm
  · rw [if_neg hm]
    rw [lookup_map_append]
    by_cases hs : s ∈ (colStates cm c samples).dedup
    · rw [if_pos hs, if_pos (Or.inl (List.mem_dedup.mp hs))]
    · rw [if_neg hs]
      by_cases hsm : s = missing
      · subst hsm
        have hcount : stateCount cm c samples s = 0 :=
          List.count_eq_zero_of_not_mem (fun h => hs (List.mem_dedup.mpr h))
        rw [if_pos (Or.inr rfl), hcount]
        simp [List.lookup]
      · rw [if_neg]
        · simp [List.lookup, beq_eq_false_iff_ne.mpr hsm]
        · rintro (h | rfl)
          · exact hs (List.mem_dedup.mpr h)
          · exact hsm rfl

/-- The table row of character `c` is its dictionary. -/
theorem freqTable_getD (cm : List (List ℤ)) (missing : ℤ) (samples : List ℕ)
    (c : ℕ) (hc : c < numChars cm) :
    (freqTable cm missing samples).getD c [] = charDict cm c samples missing := by
  unfold freqTable
  rw [List.getD_eq_getElem?_getD, List.getElem?_map, List.getElem?_range hc]
  rfl

/-- C10: with an empty sample list (or `None`) the frequency table is the
one computed over all rows of the deduplicated character matrix (the
Python guard `if not samples` treats both alike); for a non-empty subset
the table is computed over exactly that subset, each character mapping
every observed state to its count over the subset and always containing
the missing-sentinel key (count 0 when unobserved). -/
theorem compute_mutation_frequencies_spec (cm : List (List ℤ)) (missing : ℤ) :
    (computeMutationFrequencies cm missing none =
        freqTable cm missing (List.range cm.length) ∧
      computeMutationFrequencies cm missing (some []) =
        freqTable cm missing (List.range cm.length)) ∧
    (∀ samples : List ℕ, samples ≠ [] →
      computeMutationFrequencies cm missing (some samples) =
        freqTable cm missing samples) ∧
    (∀ (samples : List ℕ) (c : ℕ), c < numChars cm → ∀ s : ℤ,
      List.lookup s ((freqTable cm missing samples).getD c []) =
        if s ∈ colStates cm c samples ∨ s = missing
        then some (stateCount cm c samples s) else none) := by
  refine ⟨⟨rfl, rfl⟩, ?_, ?_⟩
  · intro samples hne
    cases samples with
    | nil => exact absurd rfl hne
    | cons i rest => rfl
  · intro samples c hc s
    rw [freqTable_getD cm missing samples c hc]
    exact charDict_lookup cm c samples missing s

/-- Witness for C10: the non-empty subset `[0, 2]` of a 3×1 matrix counts
over exactly those rows and carries the missing key with count 0. -/
theorem compute_mutation_frequencies_spec_witness :
    computeMutationFrequencies [[1], [1], [0]] (-1) (some [0, 1, 2]) =
      freqTable [[1], [1], [0]] (-1) [0, 1, 2] ∧
    List.lookup (-1) ((freqTable [[1], [1], [0]] (-1) [0, 2]).getD 0 []) = some 0 ∧
    List.lookup 1 ((freqTable [[1], [1], [0]] (-1) [0, 2]).getD 0 []) = some 1 := by
  refine ⟨(compute_mutation_frequencies_spec [[1], [1], [0]] (-1)).2.1 [0, 1, 2] (by decide),
    ?_, ?_⟩
  · have h := (compute_mutation_frequencies_spec [[1], [1], [0]] (-1)).2.2 [0, 2] 0
      (by decide) (-1)
    rw [h]
    decide
  · have h := (compute_mutation_frequencies_spec [[1], [1], [0]] (-1)).2.2 [0, 2] 0
      (by decide) 1
    rw [h]
    decide

/-! ## C5: the hybrid split selects the best qualifying pair -/

/-- One selection step either keeps the accumulator or moves to a
qualifying pair with a strictly larger score; it never loses ground, and
after seeing a qualifying pair the accumulated score covers it. -/
theorem selectStep_cases (w : Option (ℕ → ℤ → ℚ)) (m : ℤ) (n : ℕ)
    (d : List (ℤ × ℕ)) (c : ℕ) (acc : ℚ × ℕ × ℤ) (p : ℤ × ℕ) :
    acc.1 ≤ (selectStep w m n d c acc p).1 ∧
    (selectStep w m n d c acc p = acc ∨
      (qualifies m n d p.1 p.2 ∧
        selectStep w m n d c acc p = (pairScore w c p.1 p.2, c, p.1))) ∧
    (qualifies m n d p.1 p.2 → pairScore w c p.1 p.2 ≤ (selectStep w m n d c acc p).1) := by
  unfold selectStep
  by_cases hq : qualifies m n d p.1 p.2
  · rw [if_pos hq]
    by_cases hlt : acc.1 < pairScore w c p.1 p.2
    · rw [if_pos hlt]
      exact ⟨le_of_lt hlt, Or.inr ⟨hq, rfl⟩, fun _ => le_refl _⟩
    · rw [if_neg hlt]
      exact ⟨le_refl _, Or.inl rfl, fun _ => le_of_not_lt hlt⟩
  · rw [if_neg hq]
    exact ⟨le_refl _, Or.inl rfl, fun hq2 => absurd hq2 hq⟩

/-- The inner fold over one dictionary: the score never decreases, the
result is the accumulator or a qualifying pair of this dictionary at its
own score, and the final score covers every qualifying pair seen. -/
theorem selectFold_inner (w : Option (ℕ → ℤ → ℚ)) (m : ℤ) (n : ℕ)
    (d : List (ℤ × ℕ)) (c : ℕ) (l : List (ℤ × ℕ)) (acc : ℚ × ℕ × ℤ) :
    acc.1 ≤ (l.foldl (selectStep w m n d c) acc).1 ∧
    (l.foldl (selectStep w m n d c) acc = acc ∨
      ∃ p ∈ l, qualifies m n d p.1 p.2 ∧
        l.foldl (selectStep w m n d c) acc = (pairScore w c p.1 p.2, c, p.1)) ∧
    (∀ p ∈ l, qualifies m n d p.1 p.2 →
      pairScore w c p.1 p.2 ≤ (l.foldl (selectStep w m n d c) acc).1) := by
  induction l generalizing acc with
  | nil => exact ⟨le_refl _, Or.inl rfl, fun p hp => absurd hp (List.not_mem_nil p)⟩
  | cons q l ih =>
    obtain ⟨hs1, hs2, hs3⟩ := selectStep_cases w m n d c acc q
    obtain ⟨ih1, ih2, ih3⟩ := ih (selectStep w m n d c acc q)
    rw [List.foldl_cons]
    refine ⟨le_trans hs1 ih1, ?_, ?_⟩
    · rcases ih2 with h | ⟨p, hp, hq, heq⟩
      · rcases hs2 with h2 | ⟨hq, h2⟩
        · exact Or.inl (h.trans h2)
        · exact Or.inr ⟨q, List.mem_cons_self q l, hq, h.trans h2⟩
      · exact Or.inr ⟨p, List.mem_cons_of_mem q hp, hq, heq⟩
    · intro p hp hq
      rcases List.mem_cons.mp hp with rfl | hp2
      · exact le_trans (hs3 hq) ih1
      · exact ih3 p hp2 hq

/-- The outer fold over the enumerated characters: same three facts, now
ranging over every (character, dictionary) pair of the table. -/
theorem selectFold_outer (w : Option (ℕ → ℤ → ℚ)) (m : ℤ) (n : ℕ)
    (L : List (ℕ × List (ℤ × ℕ))) (acc : ℚ × ℕ × ℤ) :
    acc.1 ≤ (L.foldl (selOuter w m n) acc).1 ∧
    (L.foldl (selOuter w m n) acc = acc ∨
      ∃ cd ∈ L, ∃ p ∈ cd.2, qualifies m n cd.2 p.1 p.2 ∧
        L.foldl (selOuter w m n) acc = (pairScore w cd.1 p.1 p.2, cd.1, p.1)) ∧
    (∀ cd ∈ L, ∀ p ∈ cd.2, qualifies m n cd.2 p.1 p.2 →
      pairScore w cd.1 p.1 p.2 ≤ (L.foldl (selOuter w m n) acc).1) := by
  induction L generalizing acc with
  | nil => exact ⟨le_refl _, Or.inl rfl, fun cd hcd => absurd hcd (List.not_mem_nil cd)⟩
  | cons cd L ih =>
    obtain ⟨hi1, hi2, hi3⟩ := selectFold_inner w m n cd.2 cd.1 cd.2 acc
    obtain ⟨ih1, ih2, ih3⟩ := ih (selOuter w m n acc cd)
    rw [List.foldl_cons]
    have hstep : selOuter w m n acc cd = cd.2.foldl (selectStep w m n cd.2 cd.1) acc := rfl
    refine ⟨le_trans (hstep ▸ hi1) ih1, ?_, ?_⟩
    · rcases ih2 with h | ⟨cd2, hcd2, p, hp, hq, heq⟩
      · rcases (hstep ▸ hi2) with h2 | ⟨p, hp, hq, h2⟩
        · exact Or.inl (h.trans h2)
        · exact Or.inr ⟨cd, List.mem_cons_self cd L, p, hp, hq, h.trans h2⟩
      · exact Or.inr ⟨cd2, List.mem_cons_of_mem cd hcd2, p, hp, hq, heq⟩
    · intro cd2 hcd2 p hp hq
      rcases List.mem_cons.mp hcd2 with rfl | hcd3
      · exact le_trans (hi3 p hp hq) ih1
      · exact ih3 cd2 hcd3 p hp hq

/-- Every dictionary entry of a frequency table other than the missing
sentinel records at least one occurrence. -/
theorem charDict_count_pos (cm : List (List ℤ)) (c : ℕ) (samples : List ℕ)
    (missing : ℤ) (p : ℤ × ℕ) (hp : p ∈ charDict cm c samples missing)
    (hne : p.1 ≠ missing) : 1 ≤ p.2 := by
  unfold charDict at hp
  by_cases hm : missing ∈ (colStates cm c samples).dedup
  · rw [if_pos hm] at hp
    obtain ⟨s, hs, rfl⟩ := List.mem_map.mp hp
    exact List.count_pos_iff.mpr (List.mem_dedup.mp hs)
  · rw [if_neg hm] at hp
    rcases List.mem_append.mp hp with h | h
    · obtain ⟨s, hs, rfl⟩ := List.mem_map.mp h
      exact List.count_pos_iff.mpr (List.mem_dedup.mp hs)
    · rw [List.mem_singleton] at h
      subst h
      exact absurd rfl hne

/-- A qualifying (count ≥ 1) pair scores strictly positively under
positive (or absent) weights. -/
theorem pairScore_pos (w : Option (ℕ → ℤ → ℚ)) (hw : posWeights w) (c : ℕ)
    (s : ℤ) (count : ℕ) (hc : 1 ≤ count) : 0 < pairScore w c s count := by
  have hc2 : (0 : ℚ) < count := by exact_mod_cast hc
  cases w with
  | none => exact hc2
  | some wf => exact mul_pos hc2 (hw c s)

/-- A table row read off the enumeration is the character's dictionary. -/
theorem mem_enum_freqTable (cm : List (List ℤ)) (missing : ℤ) (samples : List ℕ)
    (cd : ℕ × List (ℤ × ℕ)) (h : cd ∈ (freqTable cm missing samples).enum) :
    cd.2 = charDict cm cd.1 samples missing := by
  have h2 := List.mem_enum_iff_getElem?.mp h
  unfold freqTable at h2
  rw [List.getElem?_map] at h2
  cases hr : (List.range (numChars cm))[cd.1]? with
  | none => rw [hr] at h2; cases h2
  | some i =>
    rw [hr] at h2
    obtain ⟨hlt, hget⟩ := List.getElem?_eq_some_iff.mp hr
    rw [List.getElem_range] at hget
    simp at h2
    rw [← h2, ← hget]

/-- C5: the hybrid `perform_split` selection.  If no (character, state)
pair of the frequency table qualifies (state neither missing nor 0 and
frequency strictly below `len(samples)` minus the character's missing
count), the split returns `(samples, [])`.  If some pair qualifies (and
the optional weights are positive), the selected `chosen_state` is
nonzero, the selected pair is a qualifying pair of the table whose score
equals the best score, and the best score dominates the score of every
qualifying pair. -/
theorem hybrid_selects_best_pair (cm : List (List ℤ)) (missing : ℤ)
    (weights : Option (ℕ → ℤ → ℚ))
    (classifier : List ℕ → List ℕ → List ℕ → List ℕ × List ℕ)
    (improve : List ℕ → List ℕ) (samples : List ℕ) (hw : posWeights weights) :
    ((∀ cd ∈ (freqTable cm missing samples).enum, ∀ p ∈ cd.2,
        ¬ qualifies missing samples.length cd.2 p.1 p.2) →
      hybridPerformSplit cm missing weights classifier improve samples = (samples, [])) ∧
    (∀ cd ∈ (freqTable cm missing samples).enum, ∀ p ∈ cd.2,
      qualifies missing samples.length cd.2 p.1 p.2 →
      (selectBest weights missing samples.length (freqTable cm missing samples)).2.2 ≠ 0 ∧
      (∃ cd2 ∈ (freqTable cm missing samples).enum, ∃ p2 ∈ cd2.2,
        qualifies missing samples.length cd2.2 p2.1 p2.2 ∧
        selectBest weights missing samples.length (freqTable cm missing samples) =
          (pairScore weights cd2.1 p2.1 p2.2, cd2.1, p2.1)) ∧
      pairScore weights cd.1 p.1 p.2 ≤
        (selectBest weights missing samples.length (freqTable cm missing samples)).1) := by
  have hbest : selectBest weights missing samples.length (freqTable cm missing samples) =
      (freqTable cm missing samples).enum.foldl
        (selOuter weights missing samples.length) (0, 0, 0) := rfl
  obtain ⟨h1, h2, h3⟩ := selectFold_outer weights missing samples.length
    (freqTable cm missing samples).enum (0, 0, 0)
  constructor
  · intro hnone
    have hsel : selectBest weights missing samples.length (freqTable cm missing samples) =
        (0, 0, 0) := by
      rw [hbest]
      rcases h2 with h | ⟨cd, hcd, p, hp, hq, _⟩
      · exact h
      · exact absurd hq (hnone cd hcd p hp)
    simp only [hybridPerformSplit]
    rw [hsel]
    simp
  · intro cd hcd p hp hq
    have hcount : 1 ≤ p.2 := by
      have hd := mem_enum_freqTable cm missing samples cd hcd
      exact charDict_count_pos cm cd.1 samples missing p (hd ▸ hp) hq.1
    have hpos : 0 < pairScore weights cd.1 p.1 p.2 :=
      pairScore_pos weights hw cd.1 p.1 p.2 hcount
    have hge : pairScore weights cd.1 p.1 p.2 ≤
        (selectBest weights missing samples.length (freqTable cm missing samples)).1 := by
      rw [hbest]
      exact h3 cd hcd p hp hq
    have hne : selectBest weights missing samples.length (freqTable cm missing samples) ≠
        (0, 0, 0) := by
      intro h0
      rw [h0] at hge
      exact absurd (lt_of_lt_of_le hpos hge) (lt_irrefl 0)
    rcases h2 with h | ⟨cd2, hcd2, p2, hp2, hq2, heq⟩
    · exact absurd (hbest.trans h) hne
    · refine ⟨?_, ⟨cd2, hcd2, p2, hp2, hq2, hbest.trans heq⟩, hge⟩
      rw [hbest, heq]
      exact hq2.2.1

/-- Witness for C5: on the 3×1 matrix `[[1], [1], [0]]` with unweighted
scores, the pair (character 0, state 1, frequency 2) qualifies and the
selection picks a nonzero state whose score dominates it. -/
theorem hybrid_selects_best_pair_witness :
    (selectBest none (-1) ([0, 1, 2] : List ℕ).length
        (freqTable [[1], [1], [0]] (-1) [0, 1, 2])).2.2 ≠ 0 ∧
    pairScore none 0 1 2 ≤
      (selectBest none (-1) ([0, 1, 2] : List ℕ).length
        (freqTable [[1], [1], [0]] (-1) [0, 1, 2])).1 := by
  have h := (hybrid_selects_best_pair [[1], [1], [0]] (-1) none
      (fun a b _ => (a, b)) (fun l => l) [0, 1, 2] trivial).2
      (0, [(1, 2), (0, 1), (-1, 0)]) (by decide) (1, 2) (by decide) (by decide)
  exact ⟨h.1, h.2.2⟩

/-! ## C1: structural lemmas on the tree skeleton -/

/-- Unfolding of `Skel.ids` through the projections. -/
theorem Skel.ids_eq (s : Skel) : s.ids = s.id :: Skel.idsL s.children := by
  cases s with
  | node i cs => simp [Skel.ids, Skel.id, Skel.children]

/-- Unfolding of `Skel.edges` through the projections. -/
theorem Skel.edges_eq (s : Skel) : s.edges = Skel.edgesL s.id s.children := by
  cases s with
  | node i cs => simp [Skel.edges, Skel.id, Skel.children]

/-- Unfolding of `Skel.find` through the projections. -/
theorem Skel.find_eq (s : Skel) (n : ℕ) :
    s.find n = if s.id = n then some s else Skel.findL s.children n := by
  cases s with
  | node i cs => simp [Skel.find, Skel.id, Skel.children]

/-- The root id is among the ids. -/
theorem Skel.id_mem_ids (s : Skel) : s.id ∈ s.ids := by
  rw [Skel.ids_eq]
  exact List.mem_cons_self _ _

/-- Ids of the children's subtrees are ids of the tree. -/
theorem Skel.idsL_children_subset (s : Skel) (x : ℕ)
    (hx : x ∈ Skel.idsL s.children) : x ∈ s.ids := by
  rw [Skel.ids_eq]
  exact List.mem_cons_of_mem _ hx

/-- Ids of a member subtree are ids of the list. -/
theorem Skel.ids_subset_idsL (c : Skel) (cs : List Skel) (hc : c ∈ cs) :
    ∀ x ∈ c.ids, x ∈ Skel.idsL cs := by
  induction cs with
  | nil => cases hc
  | cons d cs ih =>
    intro x hx
    rw [Skel.idsL]
    rcases List.mem_cons.mp hc with rfl | hc2
    · exact List.mem_append.mpr (Or.inl hx)
    · exact List.mem_append.mpr (Or.inr (ih hc2 x hx))


/-- Membership in `Skel.edgesL`: a top edge to one of the subtrees or an
edge inside one of them. -/
theorem Skel.mem_edgesL (p : ℕ) (cs : List Skel) (e : ℕ × ℕ) :
    e ∈ Skel.edgesL p cs ↔
      (∃ c ∈ cs, e = (p, c.id)) ∨ (∃ c ∈ cs, e ∈ c.edges) := by
  induction cs with
  | nil => simp [Skel.edgesL]
  | cons c cs ih =>
    rw [Skel.edgesL]
    constructor
    · intro h
      rcases List.mem_cons.mp h with h | h
      · exact Or.inl ⟨c, List.mem_cons_self c cs, h⟩
      · rcases List.mem_append.mp h with h | h
        · exact Or.inr ⟨c, List.mem_cons_self c cs, h⟩
        · rcases ih.mp h with ⟨d, hd, h⟩ | ⟨d, hd, h⟩
          · exact Or.inl ⟨d, List.mem_cons_of_mem c hd, h⟩
          · exact Or.inr ⟨d, List.mem_cons_of_mem c hd, h⟩
    · rintro (⟨d, hd, rfl⟩ | ⟨d, hd, h⟩)
      · rcases List.mem_cons.mp hd with rfl | hd2
        · exact List.mem_cons_self _ _
        · exact List.mem_cons_of_mem _
            (List.mem_append.mpr (Or.inr (ih.mpr (Or.inl ⟨d, hd2, rfl⟩))))
      · rcases List.mem_cons.mp hd with rfl | hd2
        · exact List.mem_cons_of_mem _ (List.mem_append.mpr (Or.inl h))
        · exact List.mem_cons_of_mem _
            (List.mem_append.mpr (Or.inr (ih.mpr (Or.inr ⟨d, hd2, h⟩))))

mutual

/-- Edge endpoints: the source is a node of the tree, the target a strict
descendant. -/
theorem Skel.edges_endpoints (s : Skel) (e : ℕ × ℕ) (he : e ∈ s.edges) :
    e.1 ∈ s.ids ∧ e.2 ∈ Skel.idsL s.children := by
  match s with
  | .node i cs =>
    rw [Skel.edges] at he
    have h := Skel.edgesL_endpoints i cs e he
    simp only [Skel.ids, Skel.children]
    rcases h with ⟨h1 | h1, h2⟩
    · rw [h1]
      exact ⟨List.mem_cons_self _ _, h2⟩
    · exact ⟨List.mem_cons_of_mem _ h1, h2⟩

/-- Edge endpoints for a sibling list with top id `p`. -/
theorem Skel.edgesL_endpoints (p : ℕ) (cs : List Skel) (e : ℕ × ℕ)
    (he : e ∈ Skel.edgesL p cs) :
    (e.1 = p ∨ e.1 ∈ Skel.idsL cs) ∧ e.2 ∈ Skel.idsL cs := by
  match cs with
  | [] => cases he
  | c :: cs =>
    rw [Skel.edgesL] at he
    rw [Skel.idsL]
    rcases List.mem_cons.mp he with rfl | he2
    · exact ⟨Or.inl rfl, List.mem_append.mpr (Or.inl (Skel.id_mem_ids c))⟩
    · rcases List.mem_append.mp he2 with he3 | he3
      · have h := Skel.edges_endpoints c e he3
        exact ⟨Or.inr (List.mem_append.mpr (Or.inl h.1)),
          List.mem_append.mpr (Or.inl (Skel.idsL_children_subset c e.2 h.2))⟩
      · have h := Skel.edgesL_endpoints p cs e he3
        rcases h with ⟨h1 | h1, h2⟩
        · exact ⟨Or.inl h1, List.mem_append.mpr (Or.inr h2)⟩
        · exact ⟨Or.inr (List.mem_append.mpr (Or.inr h1)),
            List.mem_append.mpr (Or.inr h2)⟩

end

mutual

/-- The edge targets of a tree are a permutation of its strict
descendants: every non-root node has exactly one incoming edge. -/
theorem Skel.edges_snd_perm (s : Skel) :
    List.Perm (s.edges.map Prod.snd) (Skel.idsL s.children) := by
  match s with
  | .node i cs =>
    rw [Skel.edges]
    simp only [Skel.children]
    exact Skel.edgesL_snd_perm i cs

/-- Same fact for a sibling list. -/
theorem Skel.edgesL_snd_perm (p : ℕ) (cs : List Skel) :
    List.Perm ((Skel.edgesL p cs).map Prod.snd) (Skel.idsL cs) := by
  match cs with
  | [] => rw [Skel.edgesL, Skel.idsL]; rfl
  | c :: cs =>
    rw [Skel.edgesL, Skel.idsL, List.map_cons, List.map_append, Skel.ids_eq]
    show List.Perm (c.id :: (c.edges.map Prod.snd ++ (Skel.edgesL p cs).map Prod.snd))
      ((c.id :: Skel.idsL c.children) ++ Skel.idsL cs)
    rw [List.cons_append]
    exact List.Perm.cons c.id ((Skel.edges_snd_perm c).append (Skel.edgesL_snd_perm p cs))

end

mutual

/-- `find` returns a subtree rooted at the requested id whose ids form a
sublist of the tree's ids and whose edges are edges of the tree. -/
theorem Skel.find_spec (s : Skel) (n : ℕ) (sub : Skel) (h : s.find n = some sub) :
    sub.id = n ∧ List.Sublist sub.ids s.ids ∧ ∀ e ∈ sub.edges, e ∈ s.edges := by
  match s with
  | .node i cs =>
    rw [Skel.find] at h
    by_cases hid : i = n
    · rw [if_pos hid] at h
      rw [Option.some_inj] at h
      subst h
      exact ⟨hid, List.Sublist.refl _, fun e he => he⟩
    · rw [if_neg hid] at h
      obtain ⟨h1, h2, h3⟩ := Skel.findL_spec cs n sub h
      refine ⟨h1, ?_, ?_⟩
      · rw [Skel.ids]
        exact h2.cons i
      · intro e he
        rw [Skel.edges]
        exact h3 i e he

/-- `findL` version of `Skel.find_spec`. -/
theorem Skel.findL_spec (cs : List Skel) (n : ℕ) (sub : Skel)
    (h : Skel.findL cs n = some sub) :
    sub.id = n ∧ List.Sublist sub.ids (Skel.idsL cs) ∧
      ∀ p, ∀ e ∈ sub.edges, e ∈ Skel.edgesL p cs := by
  match cs with
  | [] => cases h
  | c :: cs =>
    rw [Skel.findL] at h
    cases hc : c.find n with
    | some t =>
      rw [hc, Option.some_inj] at h
      rw [h] at hc
      obtain ⟨h1, h2, h3⟩ := Skel.find_spec c n sub hc
      refine ⟨h1, ?_, ?_⟩
      · rw [Skel.idsL]
        exact h2.trans (List.sublist_append_left _ _)
      · intro p e he
        rw [Skel.edgesL]
        exact List.mem_cons_of_mem _ (List.mem_append.mpr (Or.inl (h3 e he)))
    | none =>
      rw [hc] at h
      obtain ⟨h1, h2, h3⟩ := Skel.findL_spec cs n sub h
      refine ⟨h1, ?_, ?_⟩
      · rw [Skel.idsL]
        exact h2.trans (List.sublist_append_right _ _)
      · intro p e he
        rw [Skel.edgesL]
        exact List.mem_cons_of_mem _ (List.mem_append.mpr (Or.inr (h3 p e he)))

end

mutual

/-- The DFS recomputation only writes the ages of strict descendants of
the subtree's root. -/
theorem recompute_frame (len : ℕ → ℚ) (s : Skel) (base : ℚ) (age : ℕ → ℚ) (x : ℕ)
    (hx : x ∉ Skel.idsL s.children) : recompute len s base age x = age x := by
  match s with
  | .node i cs =>
    rw [recompute]
    exact recomputeL_frame len cs base age x (by simpa [Skel.children] using hx)

/-- The sibling-list recomputation only writes ids of the list. -/
theorem recomputeL_frame (len : ℕ → ℚ) (cs : List Skel) (base : ℚ) (age : ℕ → ℚ) (x : ℕ)
    (hx : x ∉ Skel.idsL cs) : recomputeL len cs base age x = age x := by
  match cs with
  | [] => rw [recomputeL]
  | c :: cs =>
    rw [Skel.idsL] at hx
    simp only [List.mem_append] at hx
    push_neg at hx
    obtain ⟨hx1, hx2⟩ := hx
    have hxc : x ∉ Skel.idsL c.children := fun h =>
      hx1 (Skel.idsL_children_subset c x h)
    have hxid : x ≠ c.id := fun h => hx1 (h ▸ Skel.id_mem_ids c)
    rw [recomputeL]
    rw [recomputeL_frame len cs base _ x hx2]
    rw [recompute_frame len c _ _ x hxc]
    rw [Function.update_noteq hxid]

end

mutual

/-- After the DFS recomputation of a subtree whose root already carries
the age `base`, every edge of the subtree satisfies the age/length
invariant with respect to the supplied lengths. -/
theorem recompute_inv (len : ℕ → ℚ) (s : Skel) (base : ℚ) (age : ℕ → ℚ)
    (hnd : s.ids.Nodup) (hbase : age s.id = base) :
    ∀ e ∈ s.edges, recompute len s base age e.2 = recompute len s base age e.1 + len e.2 := by
  match s with
  | .node i cs =>
    intro e he
    rw [Skel.edges] at he
    rw [recompute]
    have hnd2 : (Skel.idsL cs).Nodup ∧ i ∉ Skel.idsL cs := by
      rw [Skel.ids] at hnd
      exact ⟨(List.nodup_cons.mp hnd).2, (List.nodup_cons.mp hnd).1⟩
    obtain ⟨hv, hinv⟩ := recomputeL_inv len cs base age hnd2.1
    rcases (Skel.mem_edgesL i cs e).mp he with ⟨c, hc, rfl⟩ | ⟨c, hc, hce⟩
    · have h1 : recomputeL len cs base age c.id = base + len c.id := hv c hc
      have h2 : recomputeL len cs base age i = age i := recomputeL_frame len cs base age i hnd2.2
      have h3 : age i = base := by simpa [Skel.id] using hbase
      rw [h1, h2, h3]
    · exact hinv c hc e hce

/-- Sibling-list version: after recomputing every subtree in the list
below a parent of age `base`, each subtree root carries
`base + len(root)` and every edge inside the subtrees satisfies the
invariant. -/
theorem recomputeL_inv (len : ℕ → ℚ) (cs : List Skel) (base : ℚ) (age : ℕ → ℚ)
    (hnd : (Skel.idsL cs).Nodup) :
    (∀ c ∈ cs, recomputeL len cs base age c.id = base + len c.id) ∧
    (∀ c ∈ cs, ∀ e ∈ c.edges,
      recomputeL len cs base age e.2 = recomputeL len cs base age e.1 + len e.2) := by
  match cs with
  | [] => exact ⟨fun c hc => absurd hc (List.not_mem_nil c), fun c hc => absurd hc (List.not_mem_nil c)⟩
  | c :: cs =>
    rw [Skel.idsL] at hnd
    rw [List.nodup_append] at hnd
    obtain ⟨hndc, hndcs, hdisj⟩ := hnd
    have hndcons : (c.id :: Skel.idsL c.children).Nodup := Skel.ids_eq c ▸ hndc
    have hndc2 : (Skel.idsL c.children).Nodup ∧ c.id ∉ Skel.idsL c.children :=
      ⟨(List.nodup_cons.mp hndcons).2, (List.nodup_cons.mp hndcons).1⟩
    have hcid_notin : c.id ∉ Skel.idsL cs := fun h => hdisj (Skel.id_mem_ids c) h
    have hup : Function.update age c.id (base + len c.id) c.id = base + len c.id :=
      Function.update_same c.id (base + len c.id) age
    obtain ⟨ihv, ihinv⟩ := recomputeL_inv len cs base
      (recompute len c (base + len c.id) (Function.update age c.id (base + len c.id))) hndcs
    have hAcid : recomputeL len (c :: cs) base age c.id = base + len c.id := by
      rw [recomputeL]
      rw [recomputeL_frame len cs base _ c.id hcid_notin]
      rw [recompute_frame len c _ _ c.id hndc2.2]
      exact hup
    constructor
    · intro d hd
      rcases List.mem_cons.mp hd with rfl | hd2
      · exact hAcid
      · rw [recomputeL]
        exact ihv d hd2
    · intro d hd e he
      rcases List.mem_cons.mp hd with rfl | hd2
      · have hrec := recompute_inv len d (base + len d.id)
          (Function.update age d.id (base + len d.id)) hndc hup
        have hinv2 := hrec e he
        have hep := Skel.edges_endpoints d e he
        have he1 : e.1 ∉ Skel.idsL cs := fun h => hdisj hep.1 h
        have he2 : e.2 ∉ Skel.idsL cs := fun h =>
          hdisj (Skel.idsL_children_subset d e.2 hep.2) h
        rw [recomputeL]
        rw [recomputeL_frame len cs base _ e.2 he2,
          recomputeL_frame len cs base _ e.1 he1]
        exact hinv2
      · rw [recomputeL]
        exact ihinv d hd2 e he

end

/-- In a tree with unique node ids, each node has at most one incoming
edge. -/
theorem edges_snd_unique (s : Skel) (hnd : s.ids.Nodup) (e1 e2 : ℕ × ℕ)
    (h1 : e1 ∈ s.edges) (h2 : e2 ∈ s.edges) (hsnd : e1.2 = e2.2) : e1 = e2 := by
  have hndtail : (Skel.idsL s.children).Nodup :=
    (List.nodup_cons.mp (Skel.ids_eq s ▸ hnd)).2
  have hmap : (s.edges.map Prod.snd).Nodup :=
    (Skel.edges_snd_perm s).nodup_iff.mpr hndtail
  exact eq_of_nodup_map Prod.snd s.edges e1 e2 hmap hsnd h1 h2

/-- `parent` returns the source of an edge into `n`. -/
theorem parentOf_spec (s : Skel) (n p : ℕ) (h : parentOf s n = some p) :
    (p, n) ∈ s.edges := by
  unfold parentOf at h
  cases hf : s.edges.find? (fun e => e.2 == n) with
  | none => rw [hf] at h; cases h
  | some e =>
    rw [hf] at h
    have hmem := List.mem_of_find?_eq_some hf
    have hpred := List.find?_some hf
    simp only [beq_iff_eq] at hpred
    simp at h
    have he : e = (p, n) := Prod.ext h hpred
    rw [← he]
    exact hmem

mutual

/-- An edge of the tree whose source lies inside a found subtree is an
edge of that subtree. -/
theorem Skel.edges_src_in_sub (s : Skel) (n : ℕ) (sub : Skel) (e : ℕ × ℕ)
    (hnd : s.ids.Nodup) (h : s.find n = some sub) (he : e ∈ s.edges)
    (hsrc : e.1 ∈ sub.ids) : e ∈ sub.edges := by
  match s with
  | .node i cs =>
    rw [Skel.find] at h
    by_cases hid : i = n
    · rw [if_pos hid] at h
      rw [Option.some_inj] at h
      rw [← h]
      exact he
    · rw [if_neg hid] at h
      rw [Skel.edges] at he
      rw [Skel.ids] at hnd
      exact Skel.edgesL_src_in_sub cs i n sub e (List.nodup_cons.mp hnd).2
        (List.nodup_cons.mp hnd).1 h he hsrc

/-- Sibling-list version of `Skel.edges_src_in_sub`, for a parent id `p`
that does not occur in the list. -/
theorem Skel.edgesL_src_in_sub (cs : List Skel) (p n : ℕ) (sub : Skel) (e : ℕ × ℕ)
    (hnd : (Skel.idsL cs).Nodup) (hp : p ∉ Skel.idsL cs)
    (h : Skel.findL cs n = some sub) (he : e ∈ Skel.edgesL p cs)
    (hsrc : e.1 ∈ sub.ids) : e ∈ sub.edges := by
  match cs with
  | [] => cases h
  | c :: cs =>
    rw [Skel.findL] at h
    rw [Skel.edgesL] at he
    rw [Skel.idsL] at hnd hp
    rw [List.nodup_append] at hnd
    obtain ⟨hndc, hndcs, hdisj⟩ := hnd
    simp only [List.mem_append] at hp
    push_neg at hp
    obtain ⟨hp1, hp2⟩ := hp
    cases hc : c.find n with
    | some t =>
      rw [hc] at h
      rw [Option.some_inj] at h
      rw [h] at hc
      have hsubc : ∀ x ∈ sub.ids, x ∈ c.ids := fun x hx =>
        (Skel.find_spec c n sub hc).2.1.subset hx
      rcases List.mem_cons.mp he with rfl | he2
      · exact absurd (hsubc p hsrc) hp1
      · rcases List.mem_append.mp he2 with he3 | he3
        · exact Skel.edges_src_in_sub c n sub e hndc hc he3 hsrc
        · have hep := Skel.edgesL_endpoints p cs e he3
          rcases hep.1 with h1 | h1
          · exact absurd (hsubc p (h1 ▸ hsrc)) hp1
          · exact absurd h1 (fun hh => hdisj (hsubc e.1 hsrc) hh)
    | none =>
      rw [hc] at h
      have hsubcs : ∀ x ∈ sub.ids, x ∈ Skel.idsL cs := fun x hx =>
        (Skel.findL_spec cs n sub h).2.1.subset hx
      rcases List.mem_cons.mp he with rfl | he2
      · exact absurd (hsubcs p hsrc) hp2
      · rcases List.mem_append.mp he2 with he3 | he3
        · have hep := Skel.edges_endpoints c e he3
          exact absurd (hsubcs e.1 hsrc) (fun hh => hdisj hep.1 hh)
        · exact Skel.edgesL_src_in_sub cs p n sub e hndcs hp2 h he3 hsrc

end

/-- The source of an edge into the root of a found subtree lies outside
the subtree. -/
theorem incoming_src_not_in_sub (s : Skel) (n : ℕ) (sub : Skel) (e : ℕ × ℕ)
    (hnd : s.ids.Nodup) (hf : s.find n = some sub) (he : e ∈ s.edges)
    (hsnd : e.2 = sub.id) : e.1 ∉ sub.ids := by
  intro hin
  have hsub := Skel.edges_src_in_sub s n sub e hnd hf he hin
  have hsnd2 := (Skel.edges_endpoints sub e hsub).2
  rw [hsnd] at hsnd2
  have hndsub : sub.ids.Nodup := (hf |> Skel.find_spec s n sub).2.1.nodup hnd
  exact (List.nodup_cons.mp (Skel.ids_eq sub ▸ hndsub)).1 hsnd2

/-- Every edge of the tree is an edge of a found subtree, the unique edge
into the subtree's root, or an edge with both endpoints outside the
subtree. -/
theorem edge_cases_of_find (s : Skel) (n : ℕ) (sub : Skel) (e : ℕ × ℕ)
    (hnd : s.ids.Nodup) (hf : s.find n = some sub) (he : e ∈ s.edges) :
    e ∈ sub.edges ∨ (e.2 = sub.id ∧ e.1 ∉ sub.ids) ∨
      (e.2 ∉ sub.ids ∧ e.1 ∉ sub.ids) := by
  by_cases h2 : e.2 ∈ sub.ids
  · rw [Skel.ids_eq] at h2
    rcases List.mem_cons.mp h2 with h2 | h2
    · exact Or.inr (Or.inl ⟨h2, incoming_src_not_in_sub s n sub e hnd hf he h2⟩)
    · left
      have hperm := Skel.edges_snd_perm sub
      have hmem : e.2 ∈ sub.edges.map Prod.snd := hperm.mem_iff.mpr h2
      obtain ⟨e2, he2, hsnd2⟩ := List.mem_map.mp hmem
      have he2s : e2 ∈ s.edges := (Skel.find_spec s n sub hf).2.2 e2 he2
      have heq := edges_snd_unique s hnd e e2 he he2s hsnd2.symm
      rw [heq]
      exact he2
  · right
    right
    refine ⟨h2, fun h1 => h2 ?_⟩
    have hsubE := Skel.edges_src_in_sub s n sub e hnd hf he h1
    exact Skel.idsL_children_subset sub e.2 (Skel.edges_endpoints sub e hsubE).2

/-- A successful `set_age` preserves the age/length invariant (and the
tree structure). -/
theorem setAge_preserves (t t1 : CasTree) (n : ℕ) (a : ℚ)
    (hwf : WF t) (hinv : AgeInv t) (h : setAge t n a = some t1) :
    AgeInv t1 ∧ t1.skel = t.skel := by
  unfold setAge at h
  cases hp : parentOf t.skel n with
  | none => rw [hp] at h; cases h
  | some p =>
    rw [hp] at h
    dsimp only at h
    by_cases ha : a < t.age p
    · rw [if_pos ha] at h; cases h
    · rw [if_neg ha] at h
      cases hf : t.skel.find n with
      | none => rw [hf] at h; cases h
      | some sub =>
        rw [hf] at h
        dsimp only at h
        rw [Option.some_inj] at h
        subst h
        obtain ⟨hsubid, hsublist, hsubedges⟩ := Skel.find_spec t.skel n sub hf
        have hndsub : sub.ids.Nodup := hsublist.nodup hwf
        have hsubcons := List.nodup_cons.mp (Skel.ids_eq sub ▸ hndsub)
        have hn_notch : n ∉ Skel.idsL sub.children := by
          rw [← hsubid]
          exact hsubcons.1
        have hA_n : recompute t.length sub a (Function.update t.age n a) n = a := by
          rw [recompute_frame _ _ _ _ _ hn_notch]
          exact Function.update_same n a t.age
        have hpn_edge : (p, n) ∈ t.skel.edges := parentOf_spec t.skel n p hp
        have hp_not : p ∉ sub.ids :=
          incoming_src_not_in_sub t.skel n sub (p, n) hwf hf hpn_edge hsubid.symm
        have hp_ne_n : p ≠ n := by
          intro hh
          apply hp_not
          rw [hh, ← hsubid]
          exact Skel.id_mem_ids sub
        have hp_notch : p ∉ Skel.idsL sub.children := fun hh =>
          hp_not (Skel.idsL_children_subset sub p hh)
        have hA_p : recompute t.length sub a (Function.update t.age n a) p = t.age p := by
          rw [recompute_frame _ _ _ _ _ hp_notch]
          exact Function.update_noteq hp_ne_n a t.age
        refine ⟨?_, rfl⟩
        intro e he
        dsimp only at he ⊢
        rcases edge_cases_of_find t.skel n sub e hwf hf he with hcase | ⟨hc2, hc1⟩ | ⟨hc2, hc1⟩
        · have hinv_sub := recompute_inv t.length sub a (Function.update t.age n a) hndsub
            (by rw [hsubid]; exact Function.update_same n a t.age) e hcase
          have he2ch : e.2 ∈ Skel.idsL sub.children := (Skel.edges_endpoints sub e hcase).2
          have he2_ne_n : e.2 ≠ n := by
            intro hh
            rw [hh, ← hsubid] at he2ch
            exact hsubcons.1 he2ch
          rw [Function.update_noteq he2_ne_n]
          exact hinv_sub
        · have hee : e = (p, n) := edges_snd_unique t.skel hwf e (p, n) he hpn_edge
            (by rw [hc2, hsubid])
          rw [hee]
          dsimp only
          rw [Function.update_same]
          rw [hA_n, hA_p]
          ring
        · have he2_ne_n : e.2 ≠ n := by
            intro hh
            apply hc2
            rw [hh, ← hsubid]
            exact Skel.id_mem_ids sub
          have he1_ne_n : e.1 ≠ n := by
            intro hh
            apply hc1
            rw [hh, ← hsubid]
            exact Skel.id_mem_ids sub
          have hch2 : e.2 ∉ Skel.idsL sub.children := fun hh =>
            hc2 (Skel.idsL_children_subset sub e.2 hh)
          have hch1 : e.1 ∉ Skel.idsL sub.children := fun hh =>
            hc1 (Skel.idsL_children_subset sub e.1 hh)
          rw [Function.update_noteq he2_ne_n]
          rw [recompute_frame _ _ _ _ _ hch2, recompute_frame _ _ _ _ _ hch1]
          rw [Function.update_noteq he2_ne_n, Function.update_noteq he1_ne_n]
          exact hinv e he

/-- A successful `set_branch_length` preserves the age/length invariant
(and the tree structure). -/
theorem setBranchLength_preserves (t t1 : CasTree) (p c : ℕ) (l : ℚ)
    (hwf : WF t) (hinv : AgeInv t) (h : setBranchLength t p c l = some t1) :
    AgeInv t1 ∧ t1.skel = t.skel := by
  unfold setBranchLength at h
  cases hf : t.skel.find p with
  | none => rw [hf] at h; cases h
  | some sub =>
    rw [hf] at h
    dsimp only at h
    by_cases hc : c ∈ sub.children.map Skel.id
    · rw [if_pos hc] at h
      by_cases hl : l < 0
      · rw [if_pos hl] at h; cases h
      · rw [if_neg hl] at h
        rw [Option.some_inj] at h
        subst h
        obtain ⟨hsubid, hsublist, hsubedges⟩ := Skel.find_spec t.skel p sub hf
        have hndsub : sub.ids.Nodup := hsublist.nodup hwf
        have hsubcons := List.nodup_cons.mp (Skel.ids_eq sub ▸ hndsub)
        have hcch : c ∈ Skel.idsL sub.children := by
          obtain ⟨d, hd, hdc⟩ := List.mem_map.mp hc
          rw [← hdc]
          exact Skel.ids_subset_idsL d sub.children hd d.id (Skel.id_mem_ids d)
        have hc_in_sub : c ∈ sub.ids := Skel.idsL_children_subset sub c hcch
        have hp_ne_c : p ≠ c := by
          intro hh
          apply hsubcons.1
          rw [hsubid, hh]
          exact hcch
        have hA := recompute_inv (Function.update t.length c l) sub (t.age p) t.age hndsub
          (by rw [hsubid])
        have hp_notch : p ∉ Skel.idsL sub.children := by
          intro hh
          apply hsubcons.1
          rw [hsubid]
          exact hh
        refine ⟨?_, rfl⟩
        intro e he
        dsimp only at he ⊢
        rcases edge_cases_of_find t.skel p sub e hwf hf he with hcase | ⟨hc2, hc1⟩ | ⟨hc2, hc1⟩
        · exact hA e hcase
        · have he2p : e.2 = p := by rw [hc2, hsubid]
          have hch1 : e.1 ∉ Skel.idsL sub.children := fun hh =>
            hc1 (Skel.idsL_children_subset sub e.1 hh)
          have hch2 : e.2 ∉ Skel.idsL sub.children := by
            rw [he2p]
            exact hp_notch
          have he2_ne_c : e.2 ≠ c := by
            rw [he2p]
            exact hp_ne_c
          rw [recompute_frame _ _ _ _ _ hch2, recompute_frame _ _ _ _ _ hch1]
          rw [Function.update_noteq he2_ne_c]
          exact hinv e he
        · have hch1 : e.1 ∉ Skel.idsL sub.children := fun hh =>
            hc1 (Skel.idsL_children_subset sub e.1 hh)
          have hch2 : e.2 ∉ Skel.idsL sub.children := fun hh =>
            hc2 (Skel.idsL_children_subset sub e.2 hh)
          have he2_ne_c : e.2 ≠ c := by
            intro hh
            rw [hh] at hc2
            exact hc2 hc_in_sub
          rw [recompute_frame _ _ _ _ _ hch2, recompute_frame _ _ _ _ _ hch1]
          rw [Function.update_noteq he2_ne_c]
          exact hinv e he
    · rw [if_neg hc] at h
      cases h

/-- One successful mutation preserves the invariant and the structure. -/
theorem applyOp_preserves (t t1 : CasTree) (op : TreeOp)
    (hwf : WF t) (hinv : AgeInv t) (h : applyOp t op = some t1) :
    AgeInv t1 ∧ t1.skel = t.skel := by
  cases op with
  | setAge n a => exact setAge_preserves t t1 n a hwf hinv h
  | setBranchLength p c l => exact setBranchLength_preserves t t1 p c l hwf hinv h

/-- A successful sequence of mutations preserves the invariant and the
structure. -/
theorem applyOps_preserves (ops : List TreeOp) (t t1 : CasTree)
    (hwf : WF t) (hinv : AgeInv t) (h : applyOps t ops = some t1) :
    AgeInv t1 ∧ t1.skel = t.skel := by
  induction ops generalizing t with
  | nil =>
    rw [applyOps, Option.some_inj] at h
    subst h
    exact ⟨hinv, rfl⟩
  | cons op ops ih =>
    rw [applyOps] at h
    cases hop : applyOp t op with
    | none => rw [hop] at h; cases h
    | some t2 =>
      rw [hop] at h
      obtain ⟨hinv2, hskel2⟩ := applyOp_preserves t t2 op hwf hinv hop
      have hwf2 : WF t2 := by
        unfold WF
        rw [hskel2]
        exact hwf
      obtain ⟨hinv1, hskel1⟩ := ih t2 hwf2 hinv2 h
      exact ⟨hinv1, hskel1.trans hskel2⟩

/-- C1: for every well-formed tree satisfying the age/length invariant
(as `populate_tree` establishes), after any finite sequence of successful
`set_age` and `set_branch_length` calls the equality
`age(c) = age(p) + length(p, c)` holds exactly for every edge of the
tree. -/
theorem age_length_invariant (t t1 : CasTree) (ops : List TreeOp)
    (hwf : WF t) (hinv : AgeInv t) (h : applyOps t ops = some t1) : AgeInv t1 :=
  (applyOps_preserves ops t t1 hwf hinv h).1

/-- Witness for C1: a concrete two-node tree with a successful
`set_branch_length` call. -/
theorem age_length_invariant_witness :
    ∃ t1, applyOps ⟨Skel.node 0 [Skel.node 1 []], fun n => (n : ℚ), fun _ => 1⟩
        [TreeOp.setBranchLength 0 1 2] = some t1 ∧ AgeInv t1 := by
  have hs : (applyOps ⟨Skel.node 0 [Skel.node 1 []], fun n => (n : ℚ), fun _ => 1⟩
      [TreeOp.setBranchLength 0 1 2]).isSome = true := by
    norm_num [applyOps, applyOp, setBranchLength, Skel.find, Skel.findL, Skel.children, Skel.id]
  obtain ⟨t1, ht⟩ := Option.isSome_iff_exists.mp hs
  refine ⟨t1, ht, age_length_invariant
    ⟨Skel.node 0 [Skel.node 1 []], fun n => (n : ℚ), fun _ => 1⟩ t1
    [TreeOp.setBranchLength 0 1 2] (by unfold WF; decide) ?_ ht⟩
  intro e he
  simp only [Skel.edges, Skel.edgesL, Skel.id, List.append_nil, List.nil_append,
    List.mem_singleton] at he
  subst he
  dsimp only
  norm_num

/-! ## C3: early termination of the spectral cut scan -/

/-- Every scan iteration increments the ghost step counter. -/
theorem scanStep_steps (G : ℕ → ℕ → ℚ) (verts : List ℕ) (totalW : ℚ) (i v : ℕ)
    (st : ScanState) : (scanStep G verts totalW i v st).steps = st.steps + 1 := by
  unfold scanStep
  dsimp only
  repeat' split
  all_goals rfl

/-- The numerator update of one scan iteration. -/
theorem scanStep_numerator (G : ℕ → ℕ → ℚ) (verts : List ℕ) (totalW : ℚ) (i v : ℕ)
    (st : ScanState) :
    (scanStep G verts totalW i v st).numerator =
      st.numerator + nbrWeight G verts v - 2 * cutWeight G verts v (v :: st.cut) := by
  unfold scanStep
  dsimp only
  repeat' split
  all_goals rfl

/-- When the numerator turns nonzero right after a zero, the iteration
takes the `break` branch, committing `best_index = i - 1`. -/
theorem scanStep_break (G : ℕ → ℕ → ℚ) (verts : List ℕ) (totalW : ℚ) (i v : ℕ)
    (st : ScanState)
    (hn : st.numerator + nbrWeight G verts v - 2 * cutWeight G verts v (v :: st.cut) ≠ 0)
    (hp : (if 0 < i then st.numerator else st.prevNumerator) = 0) :
    scanStep G verts totalW i v st =
      { cut := v :: st.cut,
        numerator := st.numerator + nbrWeight G verts v - 2 * cutWeight G verts v (v :: st.cut),
        denominator := st.denominator + nbrWeight G verts v,
        prevNumerator := if 0 < i then st.numerator else st.prevNumerator,
        bestScore := st.bestScore, bestIndex := i - 1,
        steps := st.steps + 1, broke := true } := by
  unfold scanStep
  dsimp only
  rw [if_pos ⟨hn, hp⟩]

/-- A run over one item is exactly one iteration. -/
theorem scanGo_single (G : ℕ → ℕ → ℚ) (verts : List ℕ) (totalW : ℚ) (i v : ℕ)
    (st : ScanState) :
    scanGo G verts totalW [(i, v)] st = scanStep G verts totalW i v st := by
  simp only [scanGo]
  split
  · rfl
  · rfl

/-- A run that did not `break` continues through appended items from its
final state. -/
theorem scanGo_append (G : ℕ → ℕ → ℚ) (verts : List ℕ) (totalW : ℚ)
    (l1 l2 : List (ℕ × ℕ)) (st : ScanState)
    (h : (scanGo G verts totalW l1 st).broke = false) :
    scanGo G verts totalW (l1 ++ l2) st =
      scanGo G verts totalW l2 (scanGo G verts totalW l1 st) := by
  induction l1 generalizing st with
  | nil => rfl
  | cons iv l1 ih =>
    obtain ⟨i, v⟩ := iv
    rw [List.cons_append]
    simp only [scanGo] at h ⊢
    by_cases hb : (scanStep G verts totalW i v st).broke = true
    · rw [if_pos hb] at h
      simp [h] at hb
    · rw [if_neg hb] at h ⊢
      rw [if_neg hb]
      exact ih _ h

/-- A run that `break`s never reaches appended items (started from a
non-broken state). -/
theorem scanGo_append_broke (G : ℕ → ℕ → ℚ) (verts : List ℕ) (totalW : ℚ)
    (l1 l2 : List (ℕ × ℕ)) (st : ScanState) (h0 : st.broke = false)
    (h : (scanGo G verts totalW l1 st).broke = true) :
    scanGo G verts totalW (l1 ++ l2) st = scanGo G verts totalW l1 st := by
  induction l1 generalizing st with
  | nil =>
    simp only [scanGo] at h
    rw [h0] at h
    simp at h
  | cons iv l1 ih =>
    obtain ⟨i, v⟩ := iv
    rw [List.cons_append]
    simp only [scanGo] at h ⊢
    by_cases hb : (scanStep G verts totalW i v st).broke = true
    · rw [if_pos hb, if_pos hb]
    · rw [if_neg hb] at h ⊢
      rw [if_neg hb]
      exact ih _ (Bool.not_eq_true _ ▸ hb) h

/-- A run that did not `break` executed one iteration per item. -/
theorem scanGo_steps (G : ℕ → ℕ → ℚ) (verts : List ℕ) (totalW : ℚ)
    (l : List (ℕ × ℕ)) (st : ScanState)
    (h : (scanGo G verts totalW l st).broke = false) :
    (scanGo G verts totalW l st).steps = st.steps + l.length := by
  induction l generalizing st with
  | nil => simp [scanGo]
  | cons iv l ih =>
    obtain ⟨i, v⟩ := iv
    simp only [scanGo] at h ⊢
    by_cases hb : (scanStep G verts totalW i v st).broke = true
    · rw [if_pos hb] at h
      simp [h] at hb
    · rw [if_neg hb] at h ⊢
      rw [ih _ h, scanStep_steps]
      rw [List.length_cons]
      omega

/-- The `i`-th iteration item carries loop index `i`. -/
theorem scanItems_fst (order : List ℕ) (i : ℕ) (hi : i < (scanItems order).length) :
    ∃ v, (scanItems order)[i]? = some (i, v) := by
  unfold scanItems at hi ⊢
  rw [List.length_zip, List.length_range] at hi
  have hi1 : i < order.length - 1 := lt_of_lt_of_le hi (min_le_left _ _)
  have hi2 : i < order.length := lt_of_lt_of_le hi1 (Nat.sub_le _ _)
  refine ⟨order[i], ?_⟩
  rw [List.getElem?_zip_eq_some]
  exact ⟨by rw [List.getElem?_range hi1], List.getElem?_eq_getElem hi2⟩

/-- One more prefix iteration is one `scanStep` (when the prefix run has
not broken). -/
theorem prefixScan_succ (G : ℕ → ℕ → ℚ) (order : List ℕ) (totalW : ℚ) (i : ℕ)
    (hi : i < (scanItems order).length)
    (hnb : (prefixScan G order totalW i).broke = false) :
    ∃ v, prefixScan G order totalW (i + 1) =
      scanStep G order totalW i v (prefixScan G order totalW i) := by
  obtain ⟨v, hv⟩ := scanItems_fst order i hi
  refine ⟨v, ?_⟩
  unfold prefixScan at hnb ⊢
  rw [List.take_succ, hv]
  rw [scanGo_append G order totalW _ _ initScan hnb]
  exact scanGo_single G order totalW i v _

/-- C3 amended: the cut scan stops early when the running numerator
becomes exactly nonzero at an index `i ≥ 1` right after being exactly 0
at index `i - 1`; it commits to the previous index (`best_index = i - 1`,
the last index of the zero run) and executes no further iteration — not
when a zero follows a zero, and not committing to the index before the
zero run began. -/
theorem scan_stops_after_zero_run (G : ℕ → ℕ → ℚ) (order : List ℕ) (totalW : ℚ)
    (i : ℕ) (h1 : 1 ≤ i) (h2 : i + 1 ≤ (scanItems order).length)
    (hnb : (prefixScan G order totalW i).broke = false)
    (hz : (prefixScan G order totalW i).numerator = 0)
    (hnz : (prefixScan G order totalW (i + 1)).numerator ≠ 0) :
    (cutScan G order totalW).broke = true ∧
    (cutScan G order totalW).bestIndex = i - 1 ∧
    (cutScan G order totalW).steps = i + 1 := by
  have hi : i < (scanItems order).length := h2
  obtain ⟨v, hstep⟩ := prefixScan_succ G order totalW i hi hnb
  have hnum : (scanStep G order totalW i v (prefixScan G order totalW i)).numerator ≠ 0 := by
    rw [← hstep]
    exact hnz
  rw [scanStep_numerator] at hnum
  have h0 : 0 < i := h1
  have hprev : (if 0 < i then (prefixScan G order totalW i).numerator
      else (prefixScan G order totalW i).prevNumerator) = 0 := by
    rw [if_pos h0]
    exact hz
  have hbr := scanStep_break G order totalW i v (prefixScan G order totalW i) hnum hprev
  have hsteps : (prefixScan G order totalW i).steps = i := by
    have hlen : ((scanItems order).take i).length = i := by
      rw [List.length_take]
      exact Nat.min_eq_left (Nat.le_of_lt hi)
    have hgo := scanGo_steps G order totalW ((scanItems order).take i) initScan hnb
    unfold prefixScan
    rw [hgo, hlen]
    simp [initScan]
  have hbroke : (prefixScan G order totalW (i + 1)).broke = true := by
    rw [hstep, hbr]
  have hcut : cutScan G order totalW = prefixScan G order totalW (i + 1) := by
    unfold cutScan prefixScan
    conv_lhs => rw [← List.take_append_drop (i + 1) (scanItems order)]
    exact scanGo_append_broke G order totalW _ _ initScan rfl hbroke
  rw [hcut, hstep, hbr]
  refine ⟨rfl, rfl, ?_⟩
  dsimp only
  rw [hsteps]

/-- C3 counterexample: on the Fiedler-ordered vertices `[0, 1, 2, 3]` of
`pairGraph` the running numerator is exactly 0 at index 0 and exactly 0
again at index 1, yet the scan does not stop there: it executes the third
iteration (where the numerator turns nonzero), breaks, and commits
`best_index = 1` — the last index of the zero run, not the index just
before the zero-run began. -/
theorem spectral_zero_run_counterexample :
    (prefixScan pairGraph [0, 1, 2, 3] (totalWeight pairGraph [0, 1, 2, 3]) 1).numerator = 0 ∧
    (prefixScan pairGraph [0, 1, 2, 3] (totalWeight pairGraph [0, 1, 2, 3]) 2).numerator = 0 ∧
    (prefixScan pairGraph [0, 1, 2, 3] (totalWeight pairGraph [0, 1, 2, 3]) 2).broke = false ∧
    (cutScan pairGraph [0, 1, 2, 3] (totalWeight pairGraph [0, 1, 2, 3])).steps = 3 ∧
    (cutScan pairGraph [0, 1, 2, 3] (totalWeight pairGraph [0, 1, 2, 3])).bestIndex = 1 := by
  have hitems : scanItems [0, 1, 2, 3] = [(0, 0), (1, 1), (2, 2)] := by decide
  refine ⟨?_, ?_, ?_, ?_, ?_⟩ <;>
    norm_num [cutScan, prefixScan, hitems, scanGo, scanStep, nbrWeight, cutWeight,
      initScan, scoreBeatsBest, totalWeight, allPairs, pairGraph]

/-- Witness for the amended C3 on `pairGraph`: at index 2 the numerator
turns nonzero right after being zero at index 1, so the scan breaks there
with `best_index = 1` after exactly 3 iterations. -/
theorem scan_stops_after_zero_run_witness :
    (cutScan pairGraph [0, 1, 2, 3] (totalWeight pairGraph [0, 1, 2, 3])).broke = true ∧
    (cutScan pairGraph [0, 1, 2, 3] (totalWeight pairGraph [0, 1, 2, 3])).bestIndex = 1 ∧
    (cutScan pairGraph [0, 1, 2, 3] (totalWeight pairGraph [0, 1, 2, 3])).steps = 3 := by
  have hitems : scanItems [0, 1, 2, 3] = [(0, 0), (1, 1), (2, 2)] := by decide
  have h := scan_stops_after_zero_run pairGraph [0, 1, 2, 3]
    (totalWeight pairGraph [0, 1, 2, 3]) 2 (by norm_num) (by decide)
    (by norm_num [prefixScan, hitems, scanGo, scanStep, nbrWeight, cutWeight,
      initScan, scoreBeatsBest, totalWeight, allPairs, pairGraph])
    (by norm_num [prefixScan, hitems, scanGo, scanStep, nbrWeight, cutWeight,
      initScan, scoreBeatsBest, totalWeight, allPairs, pairGraph])
    (by norm_num [prefixScan, hitems, scanGo, scanStep, nbrWeight, cutWeight,
      initScan, scoreBeatsBest, totalWeight, allPairs, pairGraph])
  exact ⟨h.1, h.2.1, h.2.2⟩
